import Mathlib

/-!
Shallow embedding of the FridayCharts semiconductor knowledge-graph crawler
(`02_semiconductor_getting_data.py`) and of the ngram file locator
(`03_ngram_data_finder.py`), with theorems checking the design document's
claims against the code.

External SPARQL calls (`query_dbpedia_for_organization`,
`query_related_organizations`) are network I/O; they are modelled as oracle
parameters `eo : String → Option (List Binding)` and
`ro : String → Option (List RelBinding)` where `none` stands for a caught
exception (the Python functions return `None` on error) and `some rows`
for a successful JSON result whose `results.bindings` list is `rows`.
Everything downstream of those calls is embedded from the source.

The crawl state carries, besides the Python program's variables
(`all_org_data`, `explored_uris`, `relationships`, `queue`), four
instrumentation fields that record the externally observable events of the
run — entity queries, relation queries (with the depth of the dequeued item
that issued them), `time.sleep` calls, and dequeues — so that temporal
claims about "how often was X queried / paused" can be stated.
-/

/-- One result row (`binding`) of the entity query.  Each SPARQL variable is
optional per row; `none` models the key being absent from the JSON binding. -/
structure Binding where
  organization : Option String := none
  abstract : Option String := none
  headquarters : Option String := none
  foundingDate : Option String := none
  industry : Option String := none
  numberOfEmployees : Option String := none
  location : Option String := none
  country : Option String := none
deriving DecidableEq, Repr

/-- The per-organization record built by `process_results` (the Python
dict-of-lists `org_data`). -/
structure OrgData where
  name : String
  dbpedia_uri : List String := []
  abstract : List String := []
  headquarters : List String := []
  founding_date : List String := []
  industry : List String := []
  employees : List String := []
  locations : List String := []
  countries : List String := []
deriving DecidableEq, Repr

/-- One iteration of the `for binding in bindings` loop of `process_results`:
append each field's value when the key is present. -/
def addBinding (od : OrgData) (b : Binding) : OrgData :=
  { od with
    dbpedia_uri := od.dbpedia_uri ++ b.organization.toList
    abstract := od.abstract ++ b.abstract.toList
    headquarters := od.headquarters ++ b.headquarters.toList
    founding_date := od.founding_date ++ b.foundingDate.toList
    industry := od.industry ++ b.industry.toList
    employees := od.employees ++ b.numberOfEmployees.toList
    locations := od.locations ++ b.location.toList
    countries := od.countries ++ b.country.toList }

/-- `process_results(results, org_name)`: `None` input (failed query, or a
JSON shape without `results.bindings`) or an empty bindings list yields
`None`; otherwise the parallel lists are accumulated binding by binding. -/
def process_results (results : Option (List Binding)) (org_name : String) :
    Option OrgData :=
  match results with
  | none => none
  | some bindings =>
    if bindings.length = 0 then none
    else some (bindings.foldl addBinding { name := org_name })

/-- One result row of the related-organizations query. -/
structure RelBinding where
  relatedOrg : Option String := none
  relatedOrgLabel : Option String := none
  relation : Option String := none
  relationType : Option String := none
deriving DecidableEq, Repr

/-- A processed related organization (the dict built by
`process_related_organizations`). -/
structure RelatedOrg where
  uri : String
  label : String
  relation_direction : String
  relation_type : String
deriving DecidableEq, Repr

/-- `process_related_organizations(results, org_uri)`: rows carrying both
`relatedOrg` and `relatedOrgLabel` are kept, with `"unknown"` defaults for
the direction and type fields; a `None`/malformed result gives `[]`. -/
def process_related_organizations (results : Option (List RelBinding))
    (_org_uri : String) : List RelatedOrg :=
  match results with
  | none => []
  | some bindings =>
    bindings.foldl (fun acc b =>
      match b.relatedOrg, b.relatedOrgLabel with
      | some u, some l =>
        acc ++ [{ uri := u, label := l
                  relation_direction := b.relation.getD "unknown"
                  relation_type := b.relationType.getD "unknown" }]
      | _, _ => acc) []

/-- Python `set.add` on a membership-only set modelled as a list. -/
def setAdd (s : List String) (x : String) : List String :=
  if x ∈ s then s else s ++ [x]

/-- Python dict assignment `d[k] = v` on an insertion-ordered association
list: overwrite an existing key, otherwise append. -/
def dictInsert (m : List (String × List String)) (k : String)
    (v : List String) : List (String × List String) :=
  if m.any (fun p => p.1 = k) then
    m.map (fun p => if p.1 = k then (k, v) else p)
  else m ++ [(k, v)]

/-- Python `relationships[uri].add(v)`. -/
def dictAddTarget (m : List (String × List String)) (k v : String) :
    List (String × List String) :=
  m.map (fun p => if p.1 = k then (p.1, setAdd p.2 v) else p)

/-- The mutable state of `recursive_org_exploration`, plus instrumentation
recording the run's externally observable events. -/
structure CrawlState where
  all_org_data : List OrgData := []
  explored_uris : List String := []
  relationships : List (String × List String) := []
  queue : List (String × Nat) := []
  /-- instrumentation: names passed to `query_dbpedia_for_organization`. -/
  entQueries : List String := []
  /-- instrumentation: URIs passed to `query_related_organizations`,
  with the depth of the dequeued item that triggered the query. -/
  relQueries : List (String × Nat) := []
  /-- instrumentation: number of `time.sleep(1)` calls executed. -/
  sleepCount : Nat := 0
  /-- instrumentation: number of `queue.pop(0)` dequeues executed. -/
  dequeueCount : Nat := 0
deriving DecidableEq, Repr

/-- Body of the `for related_org in related_orgs` loop:
`relationships[uri].add(related_uri)`, then enqueue the related label at
`depth + 1` unless the related URI is already explored. -/
def relFoldBody (uri : String) (depth : Nat) (t : CrawlState)
    (r : RelatedOrg) : CrawlState :=
  let t1 := { t with relationships := dictAddTarget t.relationships uri r.uri }
  if r.uri ∈ t1.explored_uris then t1
  else { t1 with queue := t1.queue ++ [(r.label, depth + 1)] }

/-- Body of the `for uri in org_data["dbpedia_uri"]` loop: skip explored
URIs; otherwise mark explored, expand relations when `depth < max_depth`
(recording the relation query, creating the `relationships[uri]` entry,
then running `relFoldBody` over the processed related organizations), then
`time.sleep(1)`. -/
def exploreUri (ro : String → Option (List RelBinding))
    (max_depth depth : Nat) (s : CrawlState) (uri : String) : CrawlState :=
  if uri ∈ s.explored_uris then s
  else
    let s1 := { s with explored_uris := s.explored_uris ++ [uri] }
    let s2 :=
      if depth < max_depth then
        let related_orgs := process_related_organizations (ro uri) uri
        let s' := { s1 with
          relQueries := s1.relQueries ++ [(uri, depth)]
          relationships := dictInsert s1.relationships uri [] }
        related_orgs.foldl (relFoldBody uri depth) s'
      else s1
    { s2 with sleepCount := s2.sleepCount + 1 }

/-- Body of the `while queue` loop, after the dequeue: discard entries
beyond `max_depth`; otherwise resolve the name (recorded in `entQueries`);
a failed or empty resolution leaves the state unchanged; otherwise append
the record and run `exploreUri` over its identifier list. -/
def crawlStep (eo : String → Option (List Binding))
    (ro : String → Option (List RelBinding)) (max_depth : Nat)
    (org_name : String) (depth : Nat) (s : CrawlState) : CrawlState :=
  if depth > max_depth then s
  else
    let s0 := { s with entQueries := s.entQueries ++ [org_name] }
    match process_results (eo org_name) org_name with
    | none => s0
    | some org_data =>
      if org_data.dbpedia_uri = [] then s0
      else
        let s1 := { s0 with all_org_data := s0.all_org_data ++ [org_data] }
        org_data.dbpedia_uri.foldl (exploreUri ro max_depth depth) s1

/-- The `while queue:` loop, fuel-indexed (the Python loop's termination
relies on the finiteness of the external identifier space, which the
oracles do not guarantee; every claim below holds for every fuel). -/
def crawlLoop (eo : String → Option (List Binding))
    (ro : String → Option (List RelBinding)) (max_depth : Nat) :
    Nat → CrawlState → CrawlState
  | 0, s => s
  | fuel + 1, s =>
    match s.queue with
    | [] => s
    | (org_name, depth) :: rest =>
      crawlLoop eo ro max_depth fuel
        (crawlStep eo ro max_depth org_name depth
          { s with queue := rest, dequeueCount := s.dequeueCount + 1 })

/-- Initial state: each seed at depth 0, everything else empty. -/
def initState (seed_organizations : List String) : CrawlState :=
  { queue := seed_organizations.map (fun org => (org, 0)) }

/-- `recursive_org_exploration(seed_organizations, max_depth)`; the Python
return value is the pair (`all_org_data`, `relationships`) of the final
state. -/
def recursive_org_exploration (eo : String → Option (List Binding))
    (ro : String → Option (List RelBinding))
    (seed_organizations : List String) (max_depth : Nat) (fuel : Nat) :
    CrawlState :=
  crawlLoop eo ro max_depth fuel (initState seed_organizations)

/-- One row of the entities output table. -/
structure OrgRow where
  name : String
  uri : String
  abstract : Option String
  headquarters : Option String
  founding_date : Option String
  employees : Option String
  locations : Option String
  countries : Option String
deriving DecidableEq, Repr

/-- The per-field fallback of `save_results_to_csv`:
`org[field][uri_idx] if uri_idx < len(org[field]) else
(org[field][0] if org[field] else None)`. -/
def attrValue (l : List String) (uri_idx : Nat) : Option String :=
  if uri_idx < l.length then l[uri_idx]?
  else if !l.isEmpty then l[0]?
  else none

/-- The `row` dict built for one `(uri_idx, uri)` of a record. -/
def mkOrgRow (org : OrgData) (uri_idx : Nat) (uri : String) : OrgRow :=
  { name := org.name
    uri := uri
    abstract := attrValue org.abstract uri_idx
    headquarters := attrValue org.headquarters uri_idx
    founding_date := attrValue org.founding_date uri_idx
    employees := attrValue org.employees uri_idx
    locations :=
      if !org.locations.isEmpty then
        some (String.intercalate "|" org.locations)
      else none
    countries :=
      if !org.countries.isEmpty then
        some (String.intercalate "|" org.countries)
      else none }

/-- Body of the `for org in all_org_data` loop: skip records with no
identifiers, then walk the identifier list with its positional index,
dropping URIs already in `seen_uris`.  The accumulator is
`(orgs_rows, seen_uris)`. -/
def orgRowsStep (acc : List OrgRow × List String) (org : OrgData) :
    List OrgRow × List String :=
  if org.dbpedia_uri.isEmpty then acc
  else
    org.dbpedia_uri.enum.foldl
      (fun (acc2 : List OrgRow × List String) p =>
        if p.2 ∈ acc2.2 then acc2
        else (acc2.1 ++ [mkOrgRow org p.1 p.2], acc2.2 ++ [p.2])) acc

/-- `orgs_df.drop_duplicates(subset=["uri"])`: keep the first row for each
`uri` (pandas' default `keep="first"`). -/
def dropDuplicatesByUri : List OrgRow → List String → List OrgRow
  | [], _ => []
  | r :: rest, seen =>
    if r.uri ∈ seen then dropDuplicatesByUri rest seen
    else r :: dropDuplicatesByUri rest (r.uri :: seen)

/-- The entity-table half of `save_results_to_csv`. -/
def save_entity_rows (all_org_data : List OrgData) : List OrgRow :=
  dropDuplicatesByUri (all_org_data.foldl orgRowsStep ([], [])).1 []

/-- The relationship-table half of `save_results_to_csv`: flatten the map
into `(source_uri, target_uri)` rows, skipping a row when the string
`source_uri ++ "||" ++ target_uri` was already seen. -/
def save_relationship_rows (relationships : List (String × List String)) :
    List (String × String) :=
  (relationships.foldl
    (fun (acc : List (String × String) × List String) p =>
      p.2.foldl
        (fun (acc2 : List (String × String) × List String) target_uri =>
          let rel_id := p.1 ++ "||" ++ target_uri
          if rel_id ∈ acc2.2 then acc2
          else (acc2.1 ++ [(p.1, target_uri)], acc2.2 ++ [rel_id])) acc)
    ([], [])).1

/-- `save_results_to_csv(all_org_data, relationships)`: the two tables
written to disk. -/
def save_results_to_csv (all_org_data : List OrgData)
    (relationships : List (String × List String)) :
    List OrgRow × List (String × String) :=
  (save_entity_rows all_org_data, save_relationship_rows relationships)

/-- The `for filename, first_term in files_with_first_terms` loop of
`find_file_for_term`, with its early `break`. -/
def findFileLoop (term : String) :
    List (String × String) → Option String → Option String
  | [], result => result
  | (filename, first_term) :: rest, result =>
    if first_term ≤ term then findFileLoop term rest (some filename)
    else result

/-- `find_file_for_term(term, files_with_first_terms)` from
`03_ngram_data_finder.py`. -/
def find_file_for_term (term : String)
    (files_with_first_terms : List (String × String)) : Option String :=
  findFileLoop term files_with_first_terms none

/-! ## Derived notions and specification-side definitions -/

/-- The keys of the Relationship Map, in insertion order. -/
def relKeys (s : CrawlState) : List String := s.relationships.map Prod.fst

/-- The URIs passed to the Relation Resolver, in call order. -/
def queriedUris (s : CrawlState) : List String := s.relQueries.map Prod.fst

/-- The crawl-loop invariant: Relationship-Map keys coincide with the
relation-query log; no URI is relation-queried twice; every queried URI is
in the Explored Set; one `time.sleep` per explored URI; queue depths are
bounded by `max_depth`; relation queries happen only below `max_depth`. -/
def CrawlInv (max_depth : Nat) (s : CrawlState) : Prop :=
  relKeys s = queriedUris s ∧
  (queriedUris s).Nodup ∧
  (∀ u ∈ queriedUris s, u ∈ s.explored_uris) ∧
  s.sleepCount = s.explored_uris.length ∧
  (∀ q ∈ s.queue, q.2 ≤ max_depth) ∧
  (∀ p ∈ s.relQueries, p.2 < max_depth)

/-- Keep the first element for each key, given an already-seen key list
(specification-side helper for the export dedup policies). -/
def dedupByKey {α : Type} (key : α → String) : List α → List String → List α
  | [], _ => []
  | x :: xs, seen =>
    if key x ∈ seen then dedupByKey key xs seen
    else x :: dedupByKey key xs (seen ++ [key x])

/-- All `(record, position, identifier)` occurrences of the entity input,
flattened in processing order. -/
def specOccurrences (all_org_data : List OrgData) :
    List (OrgData × Nat × String) :=
  all_org_data.flatMap (fun org => org.dbpedia_uri.enum.map (fun p => (org, p)))

/-- Specification of the entity table (§4.2 entity merge): flatten the
occurrences, keep the first occurrence of each identifier, and build the
row from that record and position. -/
def specEntityRows (all_org_data : List OrgData) : List OrgRow :=
  (dedupByKey (fun t => t.2.2) (specOccurrences all_org_data) []).map
    (fun t => mkOrgRow t.1 t.2.1 t.2.2)

/-- One step of the entity merge, acting on a flattened
`(record, position, identifier)` occurrence (specification-side view of
the body of the inner loop of `save_results_to_csv`). -/
def entRowStep (acc : List OrgRow × List String) (t : OrgData × Nat × String) :
    List OrgRow × List String :=
  if t.2.2 ∈ acc.2 then acc
  else (acc.1 ++ [mkOrgRow t.1 t.2.1 t.2.2], acc.2 ++ [t.2.2])

/-- The Relationship Map flattened into ordered `(source, target)` pairs. -/
def specRelPairs (relationships : List (String × List String)) :
    List (String × String) :=
  relationships.flatMap (fun p => p.2.map (fun t => (p.1, t)))

/-- The `rel_id` string the code dedups relationship rows by. -/
def joinKey (q : String × String) : String := q.1 ++ "||" ++ q.2

/-- Specification of the fallback policy (§4.2): the value at position `i`
if it exists, else the first value if the sequence is non-empty, else
null. -/
def specAttrValue (l : List String) (i : Nat) : Option String :=
  match l[i]? with
  | some v => some v
  | none => l.head?

/-- Entity bindings exhibiting misaligned parallel sequences: the first
result row carries only an abstract, the second carries the identifier and
a different abstract. -/
def cexBindings : List Binding :=
  [{ abstract := some "X" }, { organization := some "U", abstract := some "Y" }]

/-! Concrete resolver oracles used by the witness theorems.  `eoW` knows two
names; `"A"` resolves to two identifiers in one result set; `roW` relates
`uA1` to `uB` (labelled `"B"`) and returns a failure elsewhere. -/

/-- Witness entity oracle. -/
def eoW : String → Option (List Binding) := fun n =>
  if n = "A" then
    some [{ organization := some "uA1", abstract := some "absA" },
          { organization := some "uA2" }]
  else if n = "B" then some [{ organization := some "uB" }]
  else none

/-- Witness relation oracle. -/
def roW : String → Option (List RelBinding) := fun u =>
  if u = "uA1" then
    some [{ relatedOrg := some "uB", relatedOrgLabel := some "B" }]
  else none

/-! ## Lemmas about the inner relation-expansion loop -/

theorem dictAddTarget_keys (m : List (String × List String)) (k v : String) :
    (dictAddTarget m k v).map Prod.fst = m.map Prod.fst := by
  induction m with
  | nil => rfl
  | cons p m ih =>
    simp only [dictAddTarget, List.map_cons] at ih ⊢
    rw [ih]
    by_cases h : p.1 = k <;> simp [h]

theorem relFoldBody_explored (uri : String) (depth : Nat) (t : CrawlState)
    (r : RelatedOrg) :
    (relFoldBody uri depth t r).explored_uris = t.explored_uris := by
  simp only [relFoldBody]; split <;> rfl

theorem relFoldBody_relQueries (uri : String) (depth : Nat) (t : CrawlState)
    (r : RelatedOrg) :
    (relFoldBody uri depth t r).relQueries = t.relQueries := by
  simp only [relFoldBody]; split <;> rfl

theorem relFoldBody_sleepCount (uri : String) (depth : Nat) (t : CrawlState)
    (r : RelatedOrg) :
    (relFoldBody uri depth t r).sleepCount = t.sleepCount := by
  simp only [relFoldBody]; split <;> rfl

theorem relFoldBody_all_org_data (uri : String) (depth : Nat) (t : CrawlState)
    (r : RelatedOrg) :
    (relFoldBody uri depth t r).all_org_data = t.all_org_data := by
  simp only [relFoldBody]; split <;> rfl

theorem relFoldBody_entQueries (uri : String) (depth : Nat) (t : CrawlState)
    (r : RelatedOrg) :
    (relFoldBody uri depth t r).entQueries = t.entQueries := by
  simp only [relFoldBody]; split <;> rfl

theorem relFoldBody_dequeueCount (uri : String) (depth : Nat) (t : CrawlState)
    (r : RelatedOrg) :
    (relFoldBody uri depth t r).dequeueCount = t.dequeueCount := by
  simp only [relFoldBody]; split <;> rfl

theorem relFoldBody_relKeys (uri : String) (depth : Nat) (t : CrawlState)
    (r : RelatedOrg) :
    (relFoldBody uri depth t r).relationships.map Prod.fst =
      t.relationships.map Prod.fst := by
  simp only [relFoldBody]
  split <;> simp [dictAddTarget_keys]

theorem relFoldBody_queue (uri : String) (depth : Nat) (t : CrawlState)
    (r : RelatedOrg) :
    (relFoldBody uri depth t r).queue = t.queue ∨
    (relFoldBody uri depth t r).queue = t.queue ++ [(r.label, depth + 1)] := by
  simp only [relFoldBody]
  split
  · exact Or.inl rfl
  · exact Or.inr rfl

theorem relFold_explored (uri : String) (depth : Nat) (l : List RelatedOrg)
    (t : CrawlState) :
    (l.foldl (relFoldBody uri depth) t).explored_uris = t.explored_uris := by
  induction l generalizing t with
  | nil => rfl
  | cons r l ih => rw [List.foldl_cons, ih, relFoldBody_explored]

theorem relFold_relQueries (uri : String) (depth : Nat) (l : List RelatedOrg)
    (t : CrawlState) :
    (l.foldl (relFoldBody uri depth) t).relQueries = t.relQueries := by
  induction l generalizing t with
  | nil => rfl
  | cons r l ih => rw [List.foldl_cons, ih, relFoldBody_relQueries]

theorem relFold_sleepCount (uri : String) (depth : Nat) (l : List RelatedOrg)
    (t : CrawlState) :
    (l.foldl (relFoldBody uri depth) t).sleepCount = t.sleepCount := by
  induction l generalizing t with
  | nil => rfl
  | cons r l ih => rw [List.foldl_cons, ih, relFoldBody_sleepCount]

theorem relFold_all_org_data (uri : String) (depth : Nat) (l : List RelatedOrg)
    (t : CrawlState) :
    (l.foldl (relFoldBody uri depth) t).all_org_data = t.all_org_data := by
  induction l generalizing t with
  | nil => rfl
  | cons r l ih => rw [List.foldl_cons, ih, relFoldBody_all_org_data]

theorem relFold_entQueries (uri : String) (depth : Nat) (l : List RelatedOrg)
    (t : CrawlState) :
    (l.foldl (relFoldBody uri depth) t).entQueries = t.entQueries := by
  induction l generalizing t with
  | nil => rfl
  | cons r l ih => rw [List.foldl_cons, ih, relFoldBody_entQueries]

theorem relFold_dequeueCount (uri : String) (depth : Nat) (l : List RelatedOrg)
    (t : CrawlState) :
    (l.foldl (relFoldBody uri depth) t).dequeueCount = t.dequeueCount := by
  induction l generalizing t with
  | nil => rfl
  | cons r l ih => rw [List.foldl_cons, ih, relFoldBody_dequeueCount]

theorem relFold_relKeys (uri : String) (depth : Nat) (l : List RelatedOrg)
    (t : CrawlState) :
    (l.foldl (relFoldBody uri depth) t).relationships.map Prod.fst =
      t.relationships.map Prod.fst := by
  induction l generalizing t with
  | nil => rfl
  | cons r l ih => rw [List.foldl_cons, ih, relFoldBody_relKeys]

theorem relFold_queue_mem (uri : String) (depth : Nat) (l : List RelatedOrg)
    (t : CrawlState) :
    ∀ q ∈ (l.foldl (relFoldBody uri depth) t).queue,
      q ∈ t.queue ∨ q.2 = depth + 1 := by
  induction l generalizing t with
  | nil => exact fun q hq => Or.inl hq
  | cons r l ih =>
    intro q hq
    rw [List.foldl_cons] at hq
    rcases ih (relFoldBody uri depth t r) q hq with h | h
    · rcases relFoldBody_queue uri depth t r with he | he
      · rw [he] at h; exact Or.inl h
      · rw [he] at h
        rcases List.mem_append.mp h with h2 | h2
        · exact Or.inl h2
        · simp only [List.mem_singleton] at h2
          subst h2; exact Or.inr rfl
    · exact Or.inr h

theorem relFold_queue_extends (uri : String) (depth : Nat) (l : List RelatedOrg)
    (t : CrawlState) :
    t.queue <+: (l.foldl (relFoldBody uri depth) t).queue := by
  induction l generalizing t with
  | nil => exact List.prefix_rfl
  | cons r l ih =>
    rw [List.foldl_cons]
    refine List.IsPrefix.trans ?_ (ih (relFoldBody uri depth t r))
    rcases relFoldBody_queue uri depth t r with he | he
    · rw [he]
    · rw [he]; exact List.prefix_append _ _

/-! ## Lemmas about `exploreUri` -/

theorem dictOverwrite_keys (m : List (String × List String)) (k : String)
    (v : List String) :
    (m.map (fun p => if p.1 = k then (k, v) else p)).map Prod.fst =
      m.map Prod.fst := by
  induction m with
  | nil => rfl
  | cons p m ih =>
    simp only [List.map_cons] at ih ⊢
    rw [ih]
    by_cases h : p.1 = k <;> simp [h]

theorem dictInsert_keys (m : List (String × List String)) (k : String)
    (v : List String) :
    (dictInsert m k v).map Prod.fst =
      if k ∈ m.map Prod.fst then m.map Prod.fst
      else m.map Prod.fst ++ [k] := by
  by_cases h : k ∈ m.map Prod.fst
  · have hany : m.any (fun p => p.1 = k) = true := by
      simp only [List.any_eq_true, decide_eq_true_eq]
      obtain ⟨p, hp, hpk⟩ := List.mem_map.mp h
      exact ⟨p, hp, hpk⟩
    simp only [dictInsert, hany, if_true, h, if_pos]
    exact dictOverwrite_keys m k v
  · have hany : m.any (fun p => p.1 = k) = false := by
      simp only [List.any_eq_false, decide_eq_true_eq]
      intro p hp hpk
      exact h (List.mem_map.mpr ⟨p, hp, hpk⟩)
    simp [dictInsert, hany, h]

theorem exploreUri_explored (ro : String → Option (List RelBinding))
    (d depth : Nat) (s : CrawlState) (uri : String) :
    (exploreUri ro d depth s uri).explored_uris =
      if uri ∈ s.explored_uris then s.explored_uris
      else s.explored_uris ++ [uri] := by
  by_cases h : uri ∈ s.explored_uris
  · simp [exploreUri, h]
  · by_cases hd : depth < d <;>
      simp [exploreUri, h, hd, relFold_explored]

theorem exploreUri_relQueries (ro : String → Option (List RelBinding))
    (d depth : Nat) (s : CrawlState) (uri : String) :
    (exploreUri ro d depth s uri).relQueries =
      if uri ∉ s.explored_uris ∧ depth < d then
        s.relQueries ++ [(uri, depth)]
      else s.relQueries := by
  by_cases h : uri ∈ s.explored_uris
  · simp [exploreUri, h]
  · by_cases hd : depth < d <;>
      simp [exploreUri, h, hd, relFold_relQueries]

theorem exploreUri_sleepCount (ro : String → Option (List RelBinding))
    (d depth : Nat) (s : CrawlState) (uri : String) :
    (exploreUri ro d depth s uri).sleepCount =
      if uri ∈ s.explored_uris then s.sleepCount else s.sleepCount + 1 := by
  by_cases h : uri ∈ s.explored_uris
  · simp [exploreUri, h]
  · by_cases hd : depth < d <;>
      simp [exploreUri, h, hd, relFold_sleepCount]

theorem exploreUri_all_org_data (ro : String → Option (List RelBinding))
    (d depth : Nat) (s : CrawlState) (uri : String) :
    (exploreUri ro d depth s uri).all_org_data = s.all_org_data := by
  by_cases h : uri ∈ s.explored_uris
  · simp [exploreUri, h]
  · by_cases hd : depth < d <;>
      simp [exploreUri, h, hd, relFold_all_org_data]

theorem exploreUri_entQueries (ro : String → Option (List RelBinding))
    (d depth : Nat) (s : CrawlState) (uri : String) :
    (exploreUri ro d depth s uri).entQueries = s.entQueries := by
  by_cases h : uri ∈ s.explored_uris
  · simp [exploreUri, h]
  · by_cases hd : depth < d <;>
      simp [exploreUri, h, hd, relFold_entQueries]

theorem exploreUri_dequeueCount (ro : String → Option (List RelBinding))
    (d depth : Nat) (s : CrawlState) (uri : String) :
    (exploreUri ro d depth s uri).dequeueCount = s.dequeueCount := by
  by_cases h : uri ∈ s.explored_uris
  · simp [exploreUri, h]
  · by_cases hd : depth < d <;>
      simp [exploreUri, h, hd, relFold_dequeueCount]

theorem exploreUri_relKeys (ro : String → Option (List RelBinding))
    (d depth : Nat) (s : CrawlState) (uri : String)
    (hk : uri ∉ s.explored_uris → uri ∉ relKeys s) :
    relKeys (exploreUri ro d depth s uri) =
      if uri ∉ s.explored_uris ∧ depth < d then relKeys s ++ [uri]
      else relKeys s := by
  by_cases h : uri ∈ s.explored_uris
  · simp [exploreUri, h]
  · by_cases hd : depth < d
    · simp only [exploreUri, if_neg h, if_pos hd, relKeys]
      rw [relFold_relKeys]
      have hnk : uri ∉ s.relationships.map Prod.fst := hk h
      simp only [dictInsert_keys, if_neg hnk]
      simp [h, hd]
    · simp [exploreUri, h, hd, relKeys]

theorem exploreUri_queue_mem (ro : String → Option (List RelBinding))
    (d depth : Nat) (s : CrawlState) (uri : String) :
    ∀ q ∈ (exploreUri ro d depth s uri).queue,
      q ∈ s.queue ∨ (q.2 = depth + 1 ∧ depth < d) := by
  by_cases h : uri ∈ s.explored_uris
  · intro q hq
    simp only [exploreUri, if_pos h] at hq
    exact Or.inl hq
  · by_cases hd : depth < d
    · intro q hq
      simp only [exploreUri, if_neg h, if_pos hd] at hq
      have := relFold_queue_mem uri depth
        (process_related_organizations (ro uri) uri)
        { s with explored_uris := s.explored_uris ++ [uri],
                 relQueries := s.relQueries ++ [(uri, depth)],
                 relationships := dictInsert s.relationships uri [] } q
      rcases this hq with h2 | h2
      · exact Or.inl h2
      · exact Or.inr ⟨h2, hd⟩
    · intro q hq
      simp only [exploreUri, if_neg h, if_neg hd] at hq
      exact Or.inl hq

theorem exploreUri_queue_extends (ro : String → Option (List RelBinding))
    (d depth : Nat) (s : CrawlState) (uri : String) :
    s.queue <+: (exploreUri ro d depth s uri).queue := by
  by_cases h : uri ∈ s.explored_uris
  · simp [exploreUri, h]
  · by_cases hd : depth < d
    · simp only [exploreUri, if_neg h, if_pos hd]
      have h1 := relFold_queue_extends uri depth
        (process_related_organizations (ro uri) uri)
        { s with explored_uris := s.explored_uris ++ [uri],
                 relQueries := s.relQueries ++ [(uri, depth)],
                 relationships := dictInsert s.relationships uri [] }
      simpa using h1
    · simp [exploreUri, h, hd]

/-! ## The crawl-loop invariant -/

theorem exploreUri_inv (ro : String → Option (List RelBinding))
    (d depth : Nat) (s : CrawlState) (uri : String)
    (hinv : CrawlInv d s) : CrawlInv d (exploreUri ro d depth s uri) := by
  obtain ⟨hkeys, hnodup, hsub, hsleep, hqueue, hrq⟩ := hinv
  have hk : uri ∉ s.explored_uris → uri ∉ relKeys s := by
    intro hne hmem
    rw [hkeys] at hmem
    exact hne (hsub uri hmem)
  have hqd : queriedUris (exploreUri ro d depth s uri) =
      if uri ∉ s.explored_uris ∧ depth < d then queriedUris s ++ [uri]
      else queriedUris s := by
    simp only [queriedUris, exploreUri_relQueries]
    by_cases h : uri ∉ s.explored_uris ∧ depth < d <;> simp [h]
  refine ⟨?_, ?_, ?_, ?_, ?_, ?_⟩
  · rw [exploreUri_relKeys ro d depth s uri hk, hqd, hkeys]
  · rw [hqd]
    by_cases h : uri ∉ s.explored_uris ∧ depth < d
    · rw [if_pos h]
      have hnin : uri ∉ queriedUris s := fun hm => h.1 (hsub uri hm)
      simp [List.nodup_append, hnodup, hnin]
    · rw [if_neg h]; exact hnodup
  · rw [hqd, exploreUri_explored]
    by_cases h : uri ∉ s.explored_uris ∧ depth < d
    · rw [if_pos h, if_neg h.1]
      intro u hu
      rcases List.mem_append.mp hu with h2 | h2
      · exact List.mem_append.mpr (Or.inl (hsub u h2))
      · exact List.mem_append.mpr (Or.inr h2)
    · rw [if_neg h]
      by_cases he : uri ∈ s.explored_uris
      · rw [if_pos he]; exact hsub
      · rw [if_neg he]
        exact fun u hu => List.mem_append.mpr (Or.inl (hsub u hu))
  · rw [exploreUri_sleepCount, exploreUri_explored]
    by_cases he : uri ∈ s.explored_uris
    · rw [if_pos he, if_pos he]; exact hsleep
    · rw [if_neg he, if_neg he]
      simp [hsleep]
  · intro q hq
    rcases exploreUri_queue_mem ro d depth s uri q hq with h2 | h2
    · exact hqueue q h2
    · rw [h2.1]; exact h2.2
  · rw [exploreUri_relQueries]
    by_cases h : uri ∉ s.explored_uris ∧ depth < d
    · rw [if_pos h]
      intro p hp
      rcases List.mem_append.mp hp with h2 | h2
      · exact hrq p h2
      · simp only [List.mem_singleton] at h2
        rw [h2]; exact h.2
    · rw [if_neg h]; exact hrq

theorem exploreFold_inv (ro : String → Option (List RelBinding))
    (d depth : Nat) (uris : List String) (s : CrawlState)
    (hinv : CrawlInv d s) :
    CrawlInv d (uris.foldl (exploreUri ro d depth) s) := by
  induction uris generalizing s with
  | nil => exact hinv
  | cons u l ih => exact ih _ (exploreUri_inv ro d depth s u hinv)

theorem crawlStep_inv (eo : String → Option (List Binding))
    (ro : String → Option (List RelBinding)) (d : Nat) (name : String)
    (depth : Nat) (s : CrawlState) (hinv : CrawlInv d s) :
    CrawlInv d (crawlStep eo ro d name depth s) := by
  unfold crawlStep
  split
  · exact hinv
  · cases process_results (eo name) name with
    | none => exact hinv
    | some org_data =>
      by_cases hu : org_data.dbpedia_uri = []
      · simpa [hu] using hinv
      · simp only [hu, if_neg]
        split
        · exact hinv
        · exact exploreFold_inv ro d depth org_data.dbpedia_uri _ hinv

theorem crawlLoop_inv (eo : String → Option (List Binding))
    (ro : String → Option (List RelBinding)) (d fuel : Nat) (s : CrawlState)
    (hinv : CrawlInv d s) : CrawlInv d (crawlLoop eo ro d fuel s) := by
  induction fuel generalizing s with
  | zero => exact hinv
  | succ n ih =>
    cases hq : s.queue with
    | nil => simpa [crawlLoop, hq] using hinv
    | cons p rest =>
      obtain ⟨name, depth⟩ := p
      simp only [crawlLoop, hq]
      apply ih
      apply crawlStep_inv
      obtain ⟨h1, h2, h3, h4, h5, h6⟩ := hinv
      exact ⟨h1, h2, h3, h4,
        fun q hqm => h5 q (by rw [hq]; exact List.mem_cons_of_mem _ hqm), h6⟩

theorem initState_inv (d : Nat) (seeds : List String) :
    CrawlInv d (initState seeds) := by
  refine ⟨rfl, List.nodup_nil, ?_, rfl, ?_, ?_⟩
  · intro u hu
    simp [queriedUris, initState] at hu
  · intro q hq
    simp only [initState, List.mem_map] at hq
    obtain ⟨a, _, ha⟩ := hq
    rw [← ha]
    exact Nat.zero_le d
  · intro p hp
    simp [initState] at hp

theorem run_inv (eo : String → Option (List Binding))
    (ro : String → Option (List RelBinding)) (seeds : List String)
    (d fuel : Nat) :
    CrawlInv d (recursive_org_exploration eo ro seeds d fuel) :=
  crawlLoop_inv eo ro d fuel (initState seeds) (initState_inv d seeds)

/-! ## Monotonicity and key-provenance lemmas -/

theorem exploreUri_explored_extends (ro : String → Option (List RelBinding))
    (d depth : Nat) (s : CrawlState) (uri : String) :
    s.explored_uris <+: (exploreUri ro d depth s uri).explored_uris := by
  rw [exploreUri_explored]
  split
  · exact List.prefix_rfl
  · exact List.prefix_append _ _

theorem exploreFold_explored_extends (ro : String → Option (List RelBinding))
    (d depth : Nat) (uris : List String) (s : CrawlState) :
    s.explored_uris <+: (uris.foldl (exploreUri ro d depth) s).explored_uris := by
  induction uris generalizing s with
  | nil => exact List.prefix_rfl
  | cons u l ih =>
    rw [List.foldl_cons]
    exact List.IsPrefix.trans (exploreUri_explored_extends ro d depth s u) (ih _)

theorem exploreFold_explored_mem (ro : String → Option (List RelBinding))
    (d depth : Nat) (uris : List String) (s : CrawlState) :
    ∀ uri ∈ uris, uri ∈ (uris.foldl (exploreUri ro d depth) s).explored_uris := by
  induction uris generalizing s with
  | nil => intro uri h; exact absurd h (List.not_mem_nil uri)
  | cons u l ih =>
    intro uri h
    rw [List.foldl_cons]
    rcases List.mem_cons.mp h with h2 | h2
    · subst h2
      have hmem : uri ∈ (exploreUri ro d depth s uri).explored_uris := by
        rw [exploreUri_explored]
        split
        · assumption
        · exact List.mem_append.mpr (Or.inr (List.mem_singleton_self uri))
      exact (exploreFold_explored_extends ro d depth l _).subset hmem
    · exact ih _ uri h2

theorem crawlStep_explored_extends (eo : String → Option (List Binding))
    (ro : String → Option (List RelBinding)) (d : Nat) (name : String)
    (depth : Nat) (s : CrawlState) :
    s.explored_uris <+: (crawlStep eo ro d name depth s).explored_uris := by
  unfold crawlStep
  split
  · exact List.prefix_rfl
  · cases process_results (eo name) name with
    | none => exact List.prefix_rfl
    | some org_data =>
      by_cases he : org_data.dbpedia_uri = []
      · simp only [he, if_pos]
        exact List.prefix_rfl
      · simp only [if_neg he]
        have h1 := exploreFold_explored_extends ro d depth org_data.dbpedia_uri
          { s with entQueries := s.entQueries ++ [name],
                   all_org_data := s.all_org_data ++ [org_data] }
        simpa using h1

theorem exploreUri_relKeys_new (ro : String → Option (List RelBinding))
    (d depth : Nat) (s : CrawlState) (uri : String) :
    ∀ u ∈ relKeys (exploreUri ro d depth s uri),
      u ∈ relKeys s ∨ u ∉ s.explored_uris := by
  intro u hu
  by_cases h : uri ∈ s.explored_uris
  · simp only [exploreUri, if_pos h] at hu
    exact Or.inl hu
  · by_cases hd : depth < d
    · simp only [exploreUri, if_neg h, if_pos hd, relKeys] at hu
      rw [relFold_relKeys, dictInsert_keys] at hu
      by_cases hin : uri ∈ s.relationships.map Prod.fst
      · rw [if_pos hin] at hu
        exact Or.inl hu
      · rw [if_neg hin] at hu
        rcases List.mem_append.mp hu with h2 | h2
        · exact Or.inl h2
        · simp only [List.mem_singleton] at h2
          subst h2
          exact Or.inr h
    · simp only [exploreUri, if_neg h, if_neg hd, relKeys] at hu
      exact Or.inl hu

theorem exploreFold_relKeys_new (ro : String → Option (List RelBinding))
    (d depth : Nat) (uris : List String) (s : CrawlState) :
    ∀ u ∈ relKeys (uris.foldl (exploreUri ro d depth) s),
      u ∈ relKeys s ∨ u ∉ s.explored_uris := by
  induction uris generalizing s with
  | nil => exact fun u hu => Or.inl hu
  | cons u0 l ih =>
    intro u hu
    rw [List.foldl_cons] at hu
    rcases ih (exploreUri ro d depth s u0) u hu with h2 | h2
    · exact exploreUri_relKeys_new ro d depth s u0 u h2
    · right
      intro hc
      exact h2 ((exploreUri_explored_extends ro d depth s u0).subset hc)

theorem crawlStep_relKeys_new (eo : String → Option (List Binding))
    (ro : String → Option (List RelBinding)) (d : Nat) (name : String)
    (depth : Nat) (s : CrawlState) :
    ∀ u ∈ relKeys (crawlStep eo ro d name depth s),
      u ∈ relKeys s ∨ u ∉ s.explored_uris := by
  intro u hu
  unfold crawlStep at hu
  split at hu
  · exact Or.inl hu
  · cases hpr : process_results (eo name) name with
    | none =>
      rw [hpr] at hu
      exact Or.inl hu
    | some org_data =>
      rw [hpr] at hu
      by_cases he : org_data.dbpedia_uri = []
      · simp only [he, if_pos] at hu
        exact Or.inl hu
      · simp only [if_neg he] at hu
        have h2 := exploreFold_relKeys_new ro d depth org_data.dbpedia_uri
          { s with entQueries := s.entQueries ++ [name],
                   all_org_data := s.all_org_data ++ [org_data] } u
          (by simpa [relKeys] using hu)
        rcases h2 with h3 | h3
        · exact Or.inl (by simpa [relKeys] using h3)
        · exact Or.inr (by simpa using h3)

theorem crawlLoop_relKeys_new (eo : String → Option (List Binding))
    (ro : String → Option (List RelBinding)) (d fuel : Nat) (s : CrawlState) :
    ∀ u ∈ relKeys (crawlLoop eo ro d fuel s),
      u ∈ relKeys s ∨ u ∉ s.explored_uris := by
  induction fuel generalizing s with
  | zero => exact fun u hu => Or.inl hu
  | succ n ih =>
    intro u hu
    cases hq : s.queue with
    | nil =>
      simp only [crawlLoop, hq] at hu
      exact Or.inl hu
    | cons p rest =>
      obtain ⟨name, depth⟩ := p
      simp only [crawlLoop, hq] at hu
      rcases ih _ u hu with h2 | h2
      · rcases crawlStep_relKeys_new eo ro d name depth
          { s with queue := rest, dequeueCount := s.dequeueCount + 1 } u h2 with
          h3 | h3
        · exact Or.inl h3
        · exact Or.inr h3
      · right
        intro hc
        exact h2 ((crawlStep_explored_extends eo ro d name depth
          { s with queue := rest, dequeueCount := s.dequeueCount + 1 }).subset hc)

theorem exploreUri_relationships_atMax (ro : String → Option (List RelBinding))
    (d depth : Nat) (s : CrawlState) (uri : String) (hd : ¬ depth < d) :
    (exploreUri ro d depth s uri).relationships = s.relationships := by
  by_cases h : uri ∈ s.explored_uris <;> simp [exploreUri, h, hd]

theorem exploreFold_relationships_atMax (ro : String → Option (List RelBinding))
    (d depth : Nat) (uris : List String) (s : CrawlState) (hd : ¬ depth < d) :
    (uris.foldl (exploreUri ro d depth) s).relationships = s.relationships := by
  induction uris generalizing s with
  | nil => rfl
  | cons u l ih =>
    rw [List.foldl_cons, ih, exploreUri_relationships_atMax ro d depth s u hd]

theorem exploreFold_relQueries_atMax (ro : String → Option (List RelBinding))
    (d depth : Nat) (uris : List String) (s : CrawlState) (hd : ¬ depth < d) :
    (uris.foldl (exploreUri ro d depth) s).relQueries = s.relQueries := by
  induction uris generalizing s with
  | nil => rfl
  | cons u l ih =>
    rw [List.foldl_cons, ih, exploreUri_relQueries]
    simp [hd]

/-! ## Claim theorems for the Frontier Crawler -/

/-- **C1**: for every crawl run, every identifier appearing as a key of the
Relationship Map had the Relation Resolver queried for it at most once: the
key list equals the relation-query log, the log has no duplicates, and
every queried identifier is in the Explored Set (it was added before its
query and is never queried again). -/
theorem relationMap_keys_queried_at_most_once
    (eo : String → Option (List Binding))
    (ro : String → Option (List RelBinding)) (seeds : List String)
    (d fuel : Nat) :
    relKeys (recursive_org_exploration eo ro seeds d fuel) =
      queriedUris (recursive_org_exploration eo ro seeds d fuel) ∧
    (queriedUris (recursive_org_exploration eo ro seeds d fuel)).Nodup ∧
    ∀ u ∈ queriedUris (recursive_org_exploration eo ro seeds d fuel),
      u ∈ (recursive_org_exploration eo ro seeds d fuel).explored_uris := by
  obtain ⟨h1, h2, h3, _, _, _⟩ := run_inv eo ro seeds d fuel
  exact ⟨h1, h2, h3⟩

/-- Witness for C1 at a concrete run. -/
theorem relationMap_keys_queried_at_most_once_witness :
    "uA1" ∈ (recursive_org_exploration eoW roW ["A"] 1 10).explored_uris :=
  (relationMap_keys_queried_at_most_once eoW roW ["A"] 1 10).2.2 "uA1"
    (by decide)

/-- **C2**: the depth bound is respected exactly: every enqueued entry sits
at depth at most `max_depth`, every relation query was issued while
processing an item dequeued at depth strictly below `max_depth`, and for
`max_depth = 0` the Relation Resolver is never called, the Relationship
Map stays empty and the exported relationship table is empty. -/
theorem depth_bound_respected (eo : String → Option (List Binding))
    (ro : String → Option (List RelBinding)) (seeds : List String)
    (d fuel : Nat) :
    (∀ q ∈ (recursive_org_exploration eo ro seeds d fuel).queue, q.2 ≤ d) ∧
    (∀ p ∈ (recursive_org_exploration eo ro seeds d fuel).relQueries,
      p.2 < d) ∧
    (recursive_org_exploration eo ro seeds 0 fuel).relQueries = [] ∧
    (recursive_org_exploration eo ro seeds 0 fuel).relationships = [] ∧
    save_relationship_rows
      (recursive_org_exploration eo ro seeds 0 fuel).relationships = [] := by
  obtain ⟨_, _, _, _, h5, h6⟩ := run_inv eo ro seeds d fuel
  obtain ⟨g1, _, _, _, _, g6⟩ := run_inv eo ro seeds 0 fuel
  have hrq : (recursive_org_exploration eo ro seeds 0 fuel).relQueries = [] := by
    cases hc : (recursive_org_exploration eo ro seeds 0 fuel).relQueries with
    | nil => rfl
    | cons p l =>
      exact absurd (g6 p (hc ▸ List.mem_cons_self p l)) (Nat.not_lt_zero p.2)
  have hrel : (recursive_org_exploration eo ro seeds 0 fuel).relationships = [] := by
    have hk : relKeys (recursive_org_exploration eo ro seeds 0 fuel) = [] := by
      rw [g1]
      simp [queriedUris, hrq]
    exact List.map_eq_nil_iff.mp hk
  exact ⟨h5, h6, hrq, hrel, by rw [hrel]; rfl⟩

/-- Witness for C2 at a concrete run. -/
theorem depth_bound_respected_witness :
    (("uA1", 0) : String × Nat).2 < 1 :=
  (depth_bound_respected eoW roW ["A"] 1 10).2.1 ("uA1", 0) (by decide)

/-- **C4, counterexample**: the rate-limiting pause is NOT applied once per
outer loop iteration: a single dequeued item whose record carries two fresh
identifiers triggers two `time.sleep` calls in one iteration. -/
theorem one_pause_per_iteration_cex :
    (recursive_org_exploration eoW roW ["A"] 0 10).dequeueCount = 1 ∧
    (recursive_org_exploration eoW roW ["A"] 0 10).sleepCount = 2 ∧
    (recursive_org_exploration eoW roW ["A"] 0 10).sleepCount ≠
      (recursive_org_exploration eoW roW ["A"] 0 10).dequeueCount := by
  decide

/-- **C4, amended**: the rate-limiting pause is applied exactly once per
newly explored identifier (the `time.sleep(1)` sits inside the
`for uri in org_data["dbpedia_uri"]` loop, after the explored-set check),
so the total number of pauses equals the size of the Explored Set. -/
theorem one_pause_per_new_identifier (eo : String → Option (List Binding))
    (ro : String → Option (List RelBinding)) (seeds : List String)
    (d fuel : Nat) :
    (recursive_org_exploration eo ro seeds d fuel).sleepCount =
      (recursive_org_exploration eo ro seeds d fuel).explored_uris.length :=
  (run_inv eo ro seeds d fuel).2.2.2.1

/-- **C9**: after every iteration the Relationship-Map keys are a subset of
the Explored Set; a record dequeued at depth `max_depth` adds its
identifiers to the Explored Set without any relation query or Relationship
Map change; and an identifier that is explored but not a key never becomes
a key for the rest of the run. -/
theorem explored_at_max_depth_never_keyed (eo : String → Option (List Binding))
    (ro : String → Option (List RelBinding)) (d : Nat) (name : String)
    (s : CrawlState) (seeds : List String) (fuel : Nat) (u : String) :
    ((crawlStep eo ro d name d s).relationships = s.relationships ∧
     (crawlStep eo ro d name d s).relQueries = s.relQueries ∧
     (∀ od, process_results (eo name) name = some od →
        ∀ uri ∈ od.dbpedia_uri,
          uri ∈ (crawlStep eo ro d name d s).explored_uris)) ∧
    (∀ v ∈ relKeys (recursive_org_exploration eo ro seeds d fuel),
        v ∈ (recursive_org_exploration eo ro seeds d fuel).explored_uris) ∧
    (u ∈ s.explored_uris → u ∉ relKeys s →
        u ∉ relKeys (crawlLoop eo ro d fuel s)) := by
  have hd : ¬ d < d := Nat.lt_irrefl d
  have hgt : ¬ d > d := Nat.lt_irrefl d
  refine ⟨⟨?_, ?_, ?_⟩, ?_, ?_⟩
  · unfold crawlStep
    rw [if_neg hgt]
    cases hpr : process_results (eo name) name with
    | none => rfl
    | some org_data =>
      by_cases he : org_data.dbpedia_uri = []
      · simp only [he, if_pos]
      · simp only [if_neg he]
        have h1 := exploreFold_relationships_atMax ro d d org_data.dbpedia_uri
          { s with entQueries := s.entQueries ++ [name],
                   all_org_data := s.all_org_data ++ [org_data] } hd
        simpa using h1
  · unfold crawlStep
    rw [if_neg hgt]
    cases hpr : process_results (eo name) name with
    | none => rfl
    | some org_data =>
      by_cases he : org_data.dbpedia_uri = []
      · simp only [he, if_pos]
      · simp only [if_neg he]
        have h1 := exploreFold_relQueries_atMax ro d d org_data.dbpedia_uri
          { s with entQueries := s.entQueries ++ [name],
                   all_org_data := s.all_org_data ++ [org_data] } hd
        simpa using h1
  · intro od hpr uri huri
    unfold crawlStep
    rw [if_neg hgt, hpr]
    by_cases he : od.dbpedia_uri = []
    · rw [he] at huri
      exact absurd huri (List.not_mem_nil uri)
    · simp only [if_neg he]
      have h1 := exploreFold_explored_mem ro d d od.dbpedia_uri
        { s with entQueries := s.entQueries ++ [name],
                 all_org_data := s.all_org_data ++ [od] } uri huri
      simpa using h1
  · obtain ⟨h1, _, h3, _, _, _⟩ := run_inv eo ro seeds d fuel
    intro v hv
    rw [h1] at hv
    exact h3 v hv
  · intro hmem hnot hc
    rcases crawlLoop_relKeys_new eo ro d fuel s u hc with h2 | h2
    · exact hnot h2
    · exact h2 hmem

/-- Witness for C9 at a concrete state with a pre-explored identifier. -/
theorem explored_at_max_depth_never_keyed_witness :
    "uX" ∉ relKeys (crawlLoop eoW roW 1 5
      { explored_uris := ["uX"], queue := [("A", 0)] }) :=
  (explored_at_max_depth_never_keyed eoW roW 1 "A"
      { explored_uris := ["uX"], queue := [("A", 0)] } ["A"] 5 "uX").2.2
    (by decide) (by decide)

/-! ## Failure semantics -/

theorem crawlStep_entity_failure (eo : String → Option (List Binding))
    (ro : String → Option (List RelBinding)) (d : Nat) (name : String)
    (dep : Nat) (s : CrawlState) (hle : dep ≤ d)
    (hpr : process_results (eo name) name = none) :
    crawlStep eo ro d name dep s =
      { s with entQueries := s.entQueries ++ [name] } := by
  unfold crawlStep
  rw [if_neg (Nat.not_lt.mpr hle), hpr]

theorem exploreUri_relation_failure (ro : String → Option (List RelBinding))
    (d dep : Nat) (s : CrawlState) (uri : String) (hro : ro uri = none)
    (hmem : uri ∉ s.explored_uris) (hd : dep < d) :
    exploreUri ro d dep s uri =
      { s with explored_uris := s.explored_uris ++ [uri],
               relationships := dictInsert s.relationships uri [],
               relQueries := s.relQueries ++ [(uri, dep)],
               sleepCount := s.sleepCount + 1 } := by
  simp [exploreUri, hmem, hd, hro, process_related_organizations]

/-- **C8**: a failed or empty resolution of a single name or identifier is
treated as no data for that step only: an entity-query failure leaves the
state untouched apart from the query log, the crawl loop then continues
with the remaining queue, and a relation-query failure yields an empty
related list (the identifier is still marked explored with an empty
Relationship-Map entry); no single resolution failure aborts the crawl. -/
theorem single_resolution_failure_not_fatal
    (eo : String → Option (List Binding))
    (ro : String → Option (List RelBinding)) (d dep fuel : Nat)
    (name uri : String) (s : CrawlState) (rest : List (String × Nat)) :
    process_results none name = none ∧
    process_related_organizations none uri = [] ∧
    (dep ≤ d → process_results (eo name) name = none →
      crawlStep eo ro d name dep s =
        { s with entQueries := s.entQueries ++ [name] }) ∧
    (dep ≤ d → process_results (eo name) name = none →
      s.queue = (name, dep) :: rest →
      crawlLoop eo ro d (fuel + 1) s =
        crawlLoop eo ro d fuel
          { s with queue := rest,
                   entQueries := s.entQueries ++ [name],
                   dequeueCount := s.dequeueCount + 1 }) ∧
    (ro uri = none → uri ∉ s.explored_uris → dep < d →
      exploreUri ro d dep s uri =
        { s with explored_uris := s.explored_uris ++ [uri],
                 relationships := dictInsert s.relationships uri [],
                 relQueries := s.relQueries ++ [(uri, dep)],
                 sleepCount := s.sleepCount + 1 }) := by
  refine ⟨rfl, rfl, ?_, ?_, ?_⟩
  · intro hle hpr
    exact crawlStep_entity_failure eo ro d name dep s hle hpr
  · intro hle hpr hq
    simp only [crawlLoop, hq]
    rw [crawlStep_entity_failure eo ro d name dep
      { s with queue := rest, dequeueCount := s.dequeueCount + 1 } hle hpr]
  · intro hro hmem hd
    exact exploreUri_relation_failure ro d dep s uri hro hmem hd

/-- Witness for C8: the crawl continues past the unresolvable seed `"Z"`. -/
theorem single_resolution_failure_not_fatal_witness :
    crawlLoop eoW roW 1 (0 + 1) { queue := [("Z", 0)] } =
      crawlLoop eoW roW 1 0
        { queue := [], entQueries := ["Z"], dequeueCount := 0 + 1 } :=
  (single_resolution_failure_not_fatal eoW roW 1 0 0 "Z" "uA2"
      { queue := [("Z", 0)] } []).2.2.2.1
    (by decide) (by decide) rfl

/-! ## The export step: entity and relationship merges -/

theorem foldl_dedup_general {α β : Type} (key : α → String) (mk : α → β)
    (l : List α) (rows : List β) (seen : List String) :
    l.foldl
      (fun acc x =>
        if key x ∈ acc.2 then acc
        else (acc.1 ++ [mk x], acc.2 ++ [key x])) (rows, seen) =
      (rows ++ (dedupByKey key l seen).map mk,
       seen ++ (dedupByKey key l seen).map key) := by
  induction l generalizing rows seen with
  | nil => simp [dedupByKey]
  | cons x xs ih =>
    by_cases h : key x ∈ seen
    · rw [List.foldl_cons]
      simp only [h, if_pos]
      rw [ih]
      simp [dedupByKey, h]
    · rw [List.foldl_cons]
      simp only [h, if_neg, not_false_iff]
      rw [ih]
      simp [dedupByKey, h, List.append_assoc]

theorem dedupByKey_nodup {α : Type} (key : α → String) (l : List α)
    (seen : List String) (hs : seen.Nodup) :
    (seen ++ (dedupByKey key l seen).map key).Nodup := by
  induction l generalizing seen with
  | nil => simpa [dedupByKey]
  | cons x xs ih =>
    by_cases h : key x ∈ seen
    · simp only [dedupByKey, h, if_pos]
      exact ih seen hs
    · simp only [dedupByKey, h, if_neg, not_false_iff]
      have hns : (seen ++ [key x]).Nodup := by
        simp [List.nodup_append, hs, h]
      have := ih (seen ++ [key x]) hns
      simpa [List.append_assoc] using this

theorem dedupByKey_subset {α : Type} (key : α → String) (l : List α)
    (seen : List String) : dedupByKey key l seen ⊆ l := by
  induction l generalizing seen with
  | nil => simp [dedupByKey]
  | cons x xs ih =>
    by_cases h : key x ∈ seen
    · simp only [dedupByKey, h, if_pos]
      exact List.Subset.trans (ih seen) (List.subset_cons_self x xs)
    · simp only [dedupByKey, h, if_neg, not_false_iff]
      exact List.cons_subset_cons x (ih (seen ++ [key x]))

theorem orgRowsStep_eq (acc : List OrgRow × List String) (org : OrgData) :
    orgRowsStep acc org =
      (org.dbpedia_uri.enum.map (fun p => (org, p))).foldl entRowStep acc := by
  rw [List.foldl_map]
  by_cases he : org.dbpedia_uri = []
  · simp [orgRowsStep, he]
  · have hb : org.dbpedia_uri.isEmpty = false := by
      simp [List.isEmpty_iff, he]
    simp only [orgRowsStep, hb, Bool.false_eq_true, if_false]
    rfl

theorem orgRowsFold_eq (all : List OrgData) (acc : List OrgRow × List String) :
    all.foldl orgRowsStep acc = (specOccurrences all).foldl entRowStep acc := by
  induction all generalizing acc with
  | nil => rfl
  | cons org rest ih =>
    rw [List.foldl_cons, ih, orgRowsStep_eq]
    have : specOccurrences (org :: rest) =
        org.dbpedia_uri.enum.map (fun p => (org, p)) ++ specOccurrences rest := by
      simp [specOccurrences]
    rw [this, List.foldl_append]

theorem entFold_dedup (l : List (OrgData × Nat × String)) (rows : List OrgRow)
    (seen : List String) :
    l.foldl entRowStep (rows, seen) =
      (rows ++ (dedupByKey (fun t => t.2.2) l seen).map
        (fun t => mkOrgRow t.1 t.2.1 t.2.2),
       seen ++ (dedupByKey (fun t => t.2.2) l seen).map (fun t => t.2.2)) := by
  have h := foldl_dedup_general (fun t : OrgData × Nat × String => t.2.2)
    (fun t : OrgData × Nat × String => mkOrgRow t.1 t.2.1 t.2.2) l rows seen
  exact h

theorem dropDuplicatesByUri_of_nodup (rows : List OrgRow) (seen : List String)
    (h : (rows.map OrgRow.uri).Nodup) (hdis : ∀ r ∈ rows, r.uri ∉ seen) :
    dropDuplicatesByUri rows seen = rows := by
  induction rows generalizing seen with
  | nil => rfl
  | cons r rest ih =>
    simp only [List.map_cons, List.nodup_cons] at h
    rw [dropDuplicatesByUri, if_neg (hdis r (List.mem_cons_self r rest))]
    congr 1
    apply ih (r.uri :: seen) h.2
    intro r' hr'
    simp only [List.mem_cons]
    rintro (h2 | h2)
    · exact h.1 (h2 ▸ List.mem_map_of_mem OrgRow.uri hr')
    · exact hdis r' (List.mem_cons_of_mem r hr') h2

theorem save_entity_rows_eq (all_org_data : List OrgData) :
    save_entity_rows all_org_data = specEntityRows all_org_data ∧
    ((save_entity_rows all_org_data).map OrgRow.uri).Nodup := by
  have hfold := orgRowsFold_eq all_org_data ([], [])
  rw [entFold_dedup] at hfold
  simp only [List.nil_append] at hfold
  have hrows : (all_org_data.foldl orgRowsStep ([], [])).1 =
      (dedupByKey (fun t => t.2.2) (specOccurrences all_org_data) []).map
        (fun t => mkOrgRow t.1 t.2.1 t.2.2) := by
    rw [hfold]
  have hmapuri :
      ((dedupByKey (fun t => t.2.2) (specOccurrences all_org_data) []).map
        (fun t => mkOrgRow t.1 t.2.1 t.2.2)).map OrgRow.uri =
      (dedupByKey (fun t => t.2.2) (specOccurrences all_org_data) []).map
        (fun t => t.2.2) := by
    rw [List.map_map]
    rfl
  have hnodup :
      ((dedupByKey (fun t => t.2.2) (specOccurrences all_org_data) []).map
        (fun t => t.2.2)).Nodup := by
    have := dedupByKey_nodup (fun t => t.2.2)
      (specOccurrences all_org_data) [] List.nodup_nil
    simpa using this
  have hid : save_entity_rows all_org_data =
      (dedupByKey (fun t => t.2.2) (specOccurrences all_org_data) []).map
        (fun t => mkOrgRow t.1 t.2.1 t.2.2) := by
    unfold save_entity_rows
    rw [hrows]
    apply dropDuplicatesByUri_of_nodup
    · rw [hmapuri]
      exact hnodup
    · intro r _ hc
      exact absurd hc (List.not_mem_nil r.uri)
  constructor
  · rw [hid]
    rfl
  · rw [hid, hmapuri]
    exact hnodup

/-- **C3**: the entity table has at most one row per unique identifier,
with first-writer-wins: it equals the flattened occurrence list with the
first occurrence of each identifier kept (that record and position supply
the whole row) and every later occurrence dropped entirely, and its
identifier column has no duplicates. -/
theorem entity_table_unique_first_writer_wins (all_org_data : List OrgData)
    (relationships : List (String × List String)) :
    (save_results_to_csv all_org_data relationships).1 =
      specEntityRows all_org_data ∧
    (((save_results_to_csv all_org_data relationships).1).map
      OrgRow.uri).Nodup := by
  have h := save_entity_rows_eq all_org_data
  exact ⟨h.1, h.2⟩

theorem relFlatten (rel : List (String × List String))
    (acc : List (String × String) × List String) :
    rel.foldl
      (fun acc p =>
        p.2.foldl
          (fun (acc2 : List (String × String) × List String) target_uri =>
            let rel_id := p.1 ++ "||" ++ target_uri
            if rel_id ∈ acc2.2 then acc2
            else (acc2.1 ++ [(p.1, target_uri)], acc2.2 ++ [rel_id])) acc)
      acc =
    (specRelPairs rel).foldl
      (fun acc2 q =>
        if joinKey q ∈ acc2.2 then acc2
        else (acc2.1 ++ [q], acc2.2 ++ [joinKey q])) acc := by
  induction rel generalizing acc with
  | nil => rfl
  | cons p rest ih =>
    rw [List.foldl_cons, ih]
    have hsp : specRelPairs (p :: rest) =
        p.2.map (fun t => (p.1, t)) ++ specRelPairs rest := by
      simp [specRelPairs]
    rw [hsp, List.foldl_append, List.foldl_map]
    rfl

theorem save_relationship_rows_dedup (rel : List (String × List String)) :
    save_relationship_rows rel = dedupByKey joinKey (specRelPairs rel) [] := by
  unfold save_relationship_rows
  rw [relFlatten]
  have h : (specRelPairs rel).foldl
      (fun acc2 q =>
        if joinKey q ∈ acc2.2 then acc2
        else (acc2.1 ++ [q], acc2.2 ++ [joinKey q]))
      ([], []) =
      (([] : List (String × String)) ++
        (dedupByKey joinKey (specRelPairs rel) []).map (fun q => q),
       ([] : List String) ++
        (dedupByKey joinKey (specRelPairs rel) []).map joinKey) := by
    have h0 := foldl_dedup_general joinKey (fun q : String × String => q)
      (specRelPairs rel) [] []
    exact h0
  rw [h]
  simp

/-- **C6, counterexample**: relationship rows are deduplicated by the
concatenated string `source ++ "||" ++ target`, not by string-pair
equality: the distinct ordered pairs `("a", "b||c")` and `("a||b", "c")`
share the joined key `"a||b||c"`, so the second is dropped and the claim
"every distinct ordered pair appears exactly once" fails. -/
theorem relationship_pair_conflation_cex :
    save_relationship_rows [("a", ["b||c"]), ("a||b", ["c"])] =
      [("a", "b||c")] ∧
    ("a||b", "c") ∈ specRelPairs [("a", ["b||c"]), ("a||b", ["c"])] ∧
    ("a||b", "c") ∉ save_relationship_rows [("a", ["b||c"]), ("a||b", ["c"])] ∧
    ("a||b", "c") ≠ (("a", "b||c") : String × String) := by
  decide

/-- **C6, amended**: the relationship table is the flattened
`(source, target)` pair list of the Relationship Map deduplicated by exact
equality of the joined string `source ++ "||" ++ target` (first occurrence
kept): the joined keys of the output are pairwise distinct, every output
row is a pair of the map, and `(A,B)`/`(B,A)` remain distinct whenever
their joined encodings differ — but distinct pairs whose joined encodings
coincide (identifiers containing `"||"`) are conflated into one row. -/
theorem relationship_table_dedup_by_joined_key
    (relationships : List (String × List String)) :
    save_relationship_rows relationships =
      dedupByKey joinKey (specRelPairs relationships) [] ∧
    ((save_relationship_rows relationships).map joinKey).Nodup ∧
    ∀ q ∈ save_relationship_rows relationships,
      q ∈ specRelPairs relationships := by
  have h := save_relationship_rows_dedup relationships
  refine ⟨h, ?_, ?_⟩
  · rw [h]
    have h2 := dedupByKey_nodup joinKey (specRelPairs relationships) []
      List.nodup_nil
    simpa using h2
  · rw [h]
    exact fun q hq => dedupByKey_subset joinKey (specRelPairs relationships) [] hq

/-- Witness for the amended C6 at a concrete Relationship Map. -/
theorem relationship_table_dedup_by_joined_key_witness :
    ("uA", "uB") ∈ specRelPairs [("uA", ["uB"])] :=
  (relationship_table_dedup_by_joined_key [("uA", ["uB"])]).2.2 ("uA", "uB")
    (by decide)

/-! ## Parallel-sequence structure of `process_results` -/

theorem toList_append_filterMap {α β : Type} (f : α → Option β) (a : α)
    (l : List α) :
    (f a).toList ++ l.filterMap f = (a :: l).filterMap f := by
  cases h : f a <;> simp [List.filterMap_cons, h]

theorem addBinding_foldl (bs : List Binding) (od : OrgData) :
    bs.foldl addBinding od =
      { name := od.name
        dbpedia_uri := od.dbpedia_uri ++ bs.filterMap Binding.organization
        abstract := od.abstract ++ bs.filterMap Binding.abstract
        headquarters := od.headquarters ++ bs.filterMap Binding.headquarters
        founding_date := od.founding_date ++ bs.filterMap Binding.foundingDate
        industry := od.industry ++ bs.filterMap Binding.industry
        employees := od.employees ++ bs.filterMap Binding.numberOfEmployees
        locations := od.locations ++ bs.filterMap Binding.location
        countries := od.countries ++ bs.filterMap Binding.country } := by
  induction bs generalizing od with
  | nil => simp
  | cons b bs ih =>
    rw [List.foldl_cons, ih]
    simp [addBinding, List.append_assoc, toList_append_filterMap]

theorem process_results_some (bs : List Binding) (n : String) (h : bs ≠ []) :
    process_results (some bs) n =
      some { name := n
             dbpedia_uri := bs.filterMap Binding.organization
             abstract := bs.filterMap Binding.abstract
             headquarters := bs.filterMap Binding.headquarters
             founding_date := bs.filterMap Binding.foundingDate
             industry := bs.filterMap Binding.industry
             employees := bs.filterMap Binding.numberOfEmployees
             locations := bs.filterMap Binding.location
             countries := bs.filterMap Binding.country } := by
  have hl : bs.length ≠ 0 := by
    simpa [List.length_eq_zero] using h
  simp only [process_results, hl, if_neg, if_false]
  rw [addBinding_foldl]
  simp

theorem filterMap_getElem_of_all_isSome {α β : Type} (f : α → Option β)
    (l : List α) (hall : ∀ a ∈ l, (f a).isSome) (i : Nat) :
    (l.filterMap f)[i]? = l[i]?.bind f := by
  induction l generalizing i with
  | nil => simp
  | cons a l ih =>
    obtain ⟨v, hv⟩ := Option.isSome_iff_exists.mp
      (hall a (List.mem_cons_self a l))
    rw [List.filterMap_cons, hv]
    cases i with
    | zero => simp [hv]
    | succ j =>
      simp only [List.getElem?_cons_succ]
      exact ih (fun a ha => hall a (List.mem_cons_of_mem _ ha)) j

/-- **C5, counterexample**: the parallel attribute sequences of
`process_results` are NOT positionally aligned with the identifier list in
general: in `cexBindings` the only row carrying an identifier is row 1
(giving `dbpedia_uri = ["U"]`), that row carries `abstract = "Y"`, yet
`abstract` index 0 holds `"X"` from row 0 (a row with no identifier). -/
theorem parallel_sequences_misaligned_cex :
    process_results (some cexBindings) "n" =
      some { name := "n", dbpedia_uri := ["U"], abstract := ["X", "Y"] } ∧
    cexBindings.map Binding.organization = [none, some "U"] ∧
    cexBindings[1]?.bind Binding.abstract = some "Y" ∧
    (({ name := "n", dbpedia_uri := ["U"], abstract := ["X", "Y"] } :
        OrgData).abstract)[0]? ≠ cexBindings[1]?.bind Binding.abstract := by
  decide

/-- **C5, amended**: when every result row carries the identifier field and
every attribute field, the `OrganizationRecord` built by `process_results`
has its parallel sequences aligned by position: entry `i` of each sequence
comes from result row `i`, the same row that supplied identifier `i`. -/
theorem parallel_sequences_aligned (bs : List Binding) (n : String)
    (od : OrgData) (hres : process_results (some bs) n = some od)
    (hall : ∀ b ∈ bs, b.organization.isSome ∧ b.abstract.isSome ∧
      b.headquarters.isSome ∧ b.foundingDate.isSome ∧ b.industry.isSome ∧
      b.numberOfEmployees.isSome ∧ b.location.isSome ∧ b.country.isSome)
    (i : Nat) :
    od.dbpedia_uri[i]? = bs[i]?.bind Binding.organization ∧
    od.abstract[i]? = bs[i]?.bind Binding.abstract ∧
    od.headquarters[i]? = bs[i]?.bind Binding.headquarters ∧
    od.founding_date[i]? = bs[i]?.bind Binding.foundingDate ∧
    od.industry[i]? = bs[i]?.bind Binding.industry ∧
    od.employees[i]? = bs[i]?.bind Binding.numberOfEmployees ∧
    od.locations[i]? = bs[i]?.bind Binding.location ∧
    od.countries[i]? = bs[i]?.bind Binding.country := by
  have hne : bs ≠ [] := by
    rintro rfl
    simp [process_results] at hres
  rw [process_results_some bs n hne] at hres
  have hod := Option.some.inj hres
  subst hod
  refine ⟨?_, ?_, ?_, ?_, ?_, ?_, ?_, ?_⟩
  · exact filterMap_getElem_of_all_isSome Binding.organization bs
      (fun a ha => (hall a ha).1) i
  · exact filterMap_getElem_of_all_isSome Binding.abstract bs
      (fun a ha => (hall a ha).2.1) i
  · exact filterMap_getElem_of_all_isSome Binding.headquarters bs
      (fun a ha => (hall a ha).2.2.1) i
  · exact filterMap_getElem_of_all_isSome Binding.foundingDate bs
      (fun a ha => (hall a ha).2.2.2.1) i
  · exact filterMap_getElem_of_all_isSome Binding.industry bs
      (fun a ha => (hall a ha).2.2.2.2.1) i
  · exact filterMap_getElem_of_all_isSome Binding.numberOfEmployees bs
      (fun a ha => (hall a ha).2.2.2.2.2.1) i
  · exact filterMap_getElem_of_all_isSome Binding.location bs
      (fun a ha => (hall a ha).2.2.2.2.2.2.1) i
  · exact filterMap_getElem_of_all_isSome Binding.country bs
      (fun a ha => (hall a ha).2.2.2.2.2.2.2) i

/-- Witness for the amended C5 at a fully populated result row. -/
theorem parallel_sequences_aligned_witness :
    (process_results
        (some [{ organization := some "u", abstract := some "ab",
                 headquarters := some "hq", foundingDate := some "fd",
                 industry := some "ind", numberOfEmployees := some "ne",
                 location := some "loc", country := some "co" }]) "n").map
      (fun od => od.abstract[0]?) = some (some "ab") := by
  have h := parallel_sequences_aligned
    [{ organization := some "u", abstract := some "ab",
       headquarters := some "hq", foundingDate := some "fd",
       industry := some "ind", numberOfEmployees := some "ne",
       location := some "loc", country := some "co" }] "n"
    { name := "n", dbpedia_uri := ["u"], abstract := ["ab"],
      headquarters := ["hq"], founding_date := ["fd"], industry := ["ind"],
      employees := ["ne"], locations := ["loc"], countries := ["co"] }
    (by decide) (by decide) 0
  rw [show process_results
      (some [{ organization := some "u", abstract := some "ab",
               headquarters := some "hq", foundingDate := some "fd",
               industry := some "ind", numberOfEmployees := some "ne",
               location := some "loc", country := some "co" }]) "n" =
      some { name := "n", dbpedia_uri := ["u"], abstract := ["ab"],
             headquarters := ["hq"], founding_date := ["fd"],
             industry := ["ind"], employees := ["ne"], locations := ["loc"],
             countries := ["co"] } from by decide]
  simp only [Option.map_some']
  rw [h.2.1]
  decide

/-! ## The fallback policy and the ngram file locator -/

theorem attrValue_eq_spec (l : List String) (i : Nat) :
    attrValue l i = specAttrValue l i := by
  unfold attrValue specAttrValue
  by_cases h : i < l.length
  · rw [if_pos h, List.getElem?_eq_getElem h]
  · rw [if_neg h, List.getElem?_eq_none (Nat.le_of_not_lt h)]
    cases l with
    | nil => simp
    | cons a t => simp

/-- **C7**: for every record and identifier position `i`, the exported
value of each scalar attribute is the value at position `i` if it exists,
else the value at position 0 if the sequence is non-empty, else null; and
`locations`/`countries` are flattened into one pipe-delimited string per
record — the same string for every identifier position — or null when
empty. -/
theorem fallback_policy_and_flattening (org : OrgData) (i j : Nat)
    (u v : String) :
    (mkOrgRow org i u).abstract = specAttrValue org.abstract i ∧
    (mkOrgRow org i u).headquarters = specAttrValue org.headquarters i ∧
    (mkOrgRow org i u).founding_date = specAttrValue org.founding_date i ∧
    (mkOrgRow org i u).employees = specAttrValue org.employees i ∧
    (mkOrgRow org i u).locations =
      (if org.locations = [] then none
       else some (String.intercalate "|" org.locations)) ∧
    (mkOrgRow org i u).countries =
      (if org.countries = [] then none
       else some (String.intercalate "|" org.countries)) ∧
    (mkOrgRow org i u).locations = (mkOrgRow org j v).locations ∧
    (mkOrgRow org i u).countries = (mkOrgRow org j v).countries := by
  refine ⟨attrValue_eq_spec _ _, attrValue_eq_spec _ _, attrValue_eq_spec _ _,
    attrValue_eq_spec _ _, ?_, ?_, rfl, rfl⟩
  · cases horg : org.locations <;> simp [mkOrgRow, horg]
  · cases horg : org.countries <;> simp [mkOrgRow, horg]

theorem findFileLoop_eq (term : String) (files : List (String × String))
    (r : Option String)
    (hs : files.Pairwise (fun a b => a.2 ≤ b.2)) :
    findFileLoop term files r =
      match (files.filter (fun p => p.2 ≤ term)).getLast? with
      | some p => some p.1
      | none => r := by
  induction files generalizing r with
  | nil => simp [findFileLoop]
  | cons f rest ih =>
    obtain ⟨fn, ft⟩ := f
    obtain ⟨hf, hrest⟩ := List.pairwise_cons.mp hs
    by_cases h : ft ≤ term
    · have hstep : findFileLoop term ((fn, ft) :: rest) r =
          findFileLoop term rest (some fn) := by
        rw [findFileLoop, if_pos h]
      rw [hstep, ih (some fn) hrest]
      have hd : decide (ft ≤ term) = true := decide_eq_true h
      have hfil : ((fn, ft) :: rest).filter (fun p => p.2 ≤ term) =
          (fn, ft) :: rest.filter (fun p => p.2 ≤ term) := by
        rw [List.filter_cons,
          if_pos (show decide ((fn, ft).2 ≤ term) = true from hd)]
      rw [hfil]
      cases hfr : rest.filter (fun p => p.2 ≤ term) with
      | nil => simp
      | cons x xs =>
        rw [List.getLast?_cons_cons]
        obtain ⟨p, hp⟩ := Option.isSome_iff_exists.mp
          (show (x :: xs).getLast?.isSome by
            rw [List.getLast?_isSome]
            simp)
        rw [hp]
    · have hstep : findFileLoop term ((fn, ft) :: rest) r = r := by
        rw [findFileLoop, if_neg h]
      rw [hstep]
      have hfil : ((fn, ft) :: rest).filter (fun p => p.2 ≤ term) = [] := by
        rw [List.filter_eq_nil_iff]
        intro p hp
        simp only [decide_eq_true_eq]
        rcases List.mem_cons.mp hp with h2 | h2
        · rw [h2]
          exact h
        · intro hc
          exact h (le_trans (hf p h2) hc)
      rw [hfil]
      rfl

/-- **C10**: for every term and every list of `(filename, first_term)`
pairs sorted in ascending order by `first_term`, `find_file_for_term`
returns the filename of the last pair with `first_term ≤ term`, and `None`
when the list is empty or every `first_term` is strictly greater than the
term. -/
theorem find_file_for_term_correct (term : String)
    (files : List (String × String))
    (hs : files.Pairwise (fun a b => a.2 ≤ b.2)) :
    find_file_for_term term files =
      ((files.filter (fun p => p.2 ≤ term)).getLast?).map Prod.fst ∧
    (files = [] → find_file_for_term term files = none) ∧
    ((∀ p ∈ files, ¬ p.2 ≤ term) → find_file_for_term term files = none) := by
  have hmain : find_file_for_term term files =
      ((files.filter (fun p => p.2 ≤ term)).getLast?).map Prod.fst := by
    unfold find_file_for_term
    rw [findFileLoop_eq term files none hs]
    cases (files.filter (fun p => p.2 ≤ term)).getLast? <;> rfl
  refine ⟨hmain, ?_, ?_⟩
  · rintro rfl
    rfl
  · intro hall
    rw [hmain]
    have hfil : files.filter (fun p => p.2 ≤ term) = [] := by
      rw [List.filter_eq_nil_iff]
      intro p hp
      simpa using hall p hp
    rw [hfil]
    rfl

/-- Witness for C10 on a concrete sorted index. -/
theorem find_file_for_term_correct_witness :
    find_file_for_term "m" [("f1", "a"), ("f2", "g"), ("f3", "t")] =
      (([("f1", "a"), ("f2", "g"), ("f3", "t")].filter
        (fun p => p.2 ≤ "m")).getLast?).map Prod.fst :=
  (find_file_for_term_correct "m" [("f1", "a"), ("f2", "g"), ("f3", "t")]
    (by simp +decide [List.pairwise_cons, String.le_iff_toList_le])).1
